import Mathlib

/-
Shallow embedding of the mctx batched MCTS policies, `mctx/_src/policies.py`,
over exact rational arithmetic.

Modelling conventions:
- Machine floats become exact rationals; the float32 dtype constants
  `jnp.finfo(float32).tiny` and `jnp.finfo(float32).min` are the exact
  rationals `tinyF32` and `minLogitF32` below.
- Transcendental library functions (`jnp.log`, `jnp.exp` inside
  `jax.nn.softmax`) are abstracted as explicit function parameters `lg`
  and `expf`; every theorem quantifies over them (adding monotonicity
  hypotheses only where an argument needs them).
- Random sampling is made explicit: `jax.random.categorical` draws one
  Gumbel perturbation per logit and returns the argmax of
  `logits + noise`, so it is embedded as `categoricalSample` taking the
  realized noise vector as an argument; `jax.random.split` and
  `jax.random.dirichlet` become opaque parameters producing keys/noise.
- Batched arrays `x[B, N, ...]` become (curried) functions from the batch
  index; per-action vectors `x[..., A]` become `List` values so that
  concrete instances evaluate by `decide`/`rfl`.
- Components of the repository that the policies call but whose
  definitions are not under `src/` (`mctx/_src/search.py`,
  `mctx/_src/seq_halving.py`, `mctx/_src/action_selection.py`) are either
  modelled from the spec (marked `Modelled from the spec:`) when a claim
  constrains their behaviour, or abstracted as opaque parameters of
  `MSParams` when no claim depends on their internals (`simulate`,
  `expand`, `backward`, `instantiate_tree_from_root`).
-/

/-- Maximum of a list with a default for the empty case, embedding `jnp.max`
along the last axis; the fold starts from the head so the default is
irrelevant for the nonempty arrays the code operates on. -/
def listMaxD {α : Type} [LinearOrder α] (l : List α) (d : α) : α :=
  l.foldl max (l.headD d)

/-- Index of the first maximal element of a list, embedding `jnp.argmax`
with its lowest-index tie-breaking rule. -/
def argmaxIdx {α : Type} [LinearOrder α] : List α → ℕ
  | [] => 0
  | x :: xs => if x < xs.getD (argmaxIdx xs) x then argmaxIdx xs + 1 else 0

/-- `jnp.finfo(jnp.float32).tiny`, the smallest positive normal float32,
as an exact rational. -/
def tinyF32 : ℚ := 1 / 2 ^ 126

/-- `jnp.finfo(jnp.float32).min`, the most negative finite float32,
as an exact rational. -/
def minLogitF32 : ℚ := -(2 ^ 128 - 2 ^ 104)

/-- Embeds `_mask_invalid_actions` (policies.py lines 434-444): shift the
logits by their maximum, then substitute the finite minimum float32 logit
(not minus infinity) at invalid positions.  `none` means the caller passed
`invalid_actions=None`, in which case the logits are returned unchanged. -/
def _mask_invalid_actions (logits : List ℚ) (invalid_actions : Option (List Bool)) :
    List ℚ :=
  match invalid_actions with
  | none => logits
  | some inv =>
    (List.range logits.length).map fun i =>
      if inv.getD i false then minLogitF32 else logits.getD i 0 - listMaxD logits 0

/-- Embeds `_get_logits_from_probs` (policies.py lines 447-449):
`log(maximum(probs, tiny))`, with the library logarithm abstracted as `lg`. -/
def _get_logits_from_probs (lg : ℚ → ℚ) (probs : List ℚ) : List ℚ :=
  probs.map fun p => lg (max p tinyF32)

/-- Helper for `_add_dirichlet_noise`: elementwise
`(1 - fraction) * probs + fraction * noise`, carrying the position so the
noise vector can be an arbitrary function of the action index. -/
def _add_dirichlet_noise_from (noise : ℕ → ℚ) (dirichlet_fraction : ℚ) :
    ℕ → List ℚ → List ℚ
  | _, [] => []
  | i, p :: ps =>
    ((1 - dirichlet_fraction) * p + dirichlet_fraction * noise i)
      :: _add_dirichlet_noise_from noise dirichlet_fraction (i + 1) ps

/-- Embeds `_add_dirichlet_noise` (policies.py lines 452-464) on one batch
row.  The Dirichlet sample drawn from `rng_key` with concentration
`dirichlet_alpha` is made explicit as the realized `noise` vector. -/
def _add_dirichlet_noise (noise : ℕ → ℚ) (probs : List ℚ)
    (dirichlet_fraction : ℚ) : List ℚ :=
  _add_dirichlet_noise_from noise dirichlet_fraction 0 probs

/-- Embeds `_apply_temperature` (policies.py lines 467-472):
`(logits - max logits) / maximum(tiny, temperature)`, which also supports
`temperature = 0`. -/
def _apply_temperature (logits : List ℚ) (temperature : ℚ) : List ℚ :=
  logits.map fun x => (x - listMaxD logits 0) / max tinyF32 temperature

/-- Models `jax.nn.softmax` on one row with an abstract exponential `expf`:
`exp(x - max x) / sum`. -/
def softmaxWith (expf : ℚ → ℚ) (logits : List ℚ) : List ℚ :=
  let exps := logits.map fun x => expf (x - listMaxD logits 0)
  exps.map fun e => e / exps.sum

/-- Models `jax.random.categorical`: it perturbs each logit with Gumbel
noise drawn from the key and returns `argmax(logits + noise)`; the realized
noise vector is the explicit argument standing for the key. -/
def categoricalSample (noise : List ℚ) (logits : List ℚ) : ℕ :=
  argmaxIdx (List.zipWith (· + ·) logits noise)

/-- Modelled from the spec: the summary normalization of root visit counts
(`Tree.summary` lives in `mctx/_src/search.py`, which is not under `src/`).
Per the spec, actions never visited get probability 0 and an all-zero count
vector yields the zero vector, i.e. division by `max(total, 1)`. -/
def normalize_counts (vc : List ℚ) : List ℚ :=
  vc.map fun v => v / max vc.sum 1

/-- Root visit-count distribution from integer visit counts. -/
def visit_probs_of_counts (vc : List ℕ) : List ℚ :=
  normalize_counts (vc.map fun (v : ℕ) => (v : ℚ))

/-- Embeds the final action sampling of `muzero_policy`
(policies.py lines 110-115): the proposed action is drawn by
`jax.random.categorical` from the temperature-scaled logits of the root
visit probabilities.  `noise` is the realized Gumbel perturbation of the
categorical draw and `lg` the library logarithm. -/
def muzero_final_action (lg : ℚ → ℚ) (noise : List ℚ) (visit_counts : List ℕ)
    (temperature : ℚ) : ℕ :=
  categoricalSample noise
    (_apply_temperature (_get_logits_from_probs lg (visit_probs_of_counts visit_counts))
      temperature)

/-- Embeds the root-prior preprocessing of `muzero_policy`
(policies.py lines 80-88) on one batch row: softmax the prior logits, mix
in Dirichlet noise, go back to logits, then mask invalid actions. -/
def muzero_root_priors (expf lg : ℚ → ℚ) (noise : ℕ → ℚ) (prior_logits : List ℚ)
    (invalid_actions : Option (List Bool)) (dirichlet_fraction : ℚ) : List ℚ :=
  _mask_invalid_actions
    (_get_logits_from_probs lg
      (_add_dirichlet_noise noise (softmaxWith expf prior_logits) dirichlet_fraction))
    invalid_actions

/-- Modelled from the spec: `seq_halving.score_considered`
(`mctx/_src/seq_halving.py` is not under `src/`).  The final score is
`gumbel + prior_logit + completed_Q` for the actions whose visit count
reached the considered (maximal) visit count, and bottom (minus infinity)
for every other action. -/
def score_considered (considered_visit : ℤ) (gumbel logits qvalues : List ℚ)
    (visit_counts : List ℤ) : List (WithBot ℚ) :=
  (List.range visit_counts.length).map fun a =>
    if visit_counts.getD a 0 = considered_visit
    then ((gumbel.getD a 0 + logits.getD a 0 + qvalues.getD a 0 : ℚ) : WithBot ℚ)
    else ⊥

/-- Modelled from the spec: `action_selection.masked_argmax`
(`mctx/_src/action_selection.py` is not under `src/`).  Invalid actions are
masked to minus infinity before the argmax; ties and the all-masked case
resolve to the lowest index. -/
def masked_argmax (to_argmax : List (WithBot ℚ)) (invalid_actions : Option (List Bool)) :
    ℕ :=
  match invalid_actions with
  | none => argmaxIdx to_argmax
  | some inv =>
    argmaxIdx ((List.range to_argmax.length).map fun a =>
      if inv.getD a false then (⊥ : WithBot ℚ) else to_argmax.getD a ⊥)

/-- Embeds the action-selection tail of `gumbel_muzero_policy`
(policies.py lines 409-422): `considered_visit` is the maximal root visit
count, the scores are `score_considered`, and the returned action is their
masked argmax.  No random sampling is involved: the function is
deterministic in the search outputs. -/
def gumbel_muzero_final_action (gumbel prior_logits completed_qvalues : List ℚ)
    (visit_counts : List ℤ) (invalid_actions : Option (List Bool)) : ℕ :=
  masked_argmax
    (score_considered (listMaxD visit_counts 0) gumbel prior_logits completed_qvalues
      visit_counts)
    invalid_actions

/-- `Tree.UNVISITED` sentinel for an unexpanded edge. -/
def UNVISITED : ℤ := -1

/-- `Tree.NO_PARENT` sentinel for the root's missing parent. -/
def NO_PARENT : ℤ := -1

/-- Embeds the mctx `Tree` arena storage (spec section 3): every array
`x[B, N(, A)]` becomes a function of batch index, node index and possibly
action index.  Node indices are integers because the sentinels `UNVISITED`
and `NO_PARENT` are `-1`.  `E` is the opaque embedding type.  Named
`SearchTree` because `Tree` already exists in the ambient library. -/
structure SearchTree (E : Type) where
  node_visits : ℕ → ℤ → ℤ
  raw_values : ℕ → ℤ → ℚ
  node_values : ℕ → ℤ → ℚ
  parents : ℕ → ℤ → ℤ
  action_from_parent : ℕ → ℤ → ℤ
  children_index : ℕ → ℤ → ℕ → ℤ
  children_prior_logits : ℕ → ℤ → ℕ → ℚ
  children_visits : ℕ → ℤ → ℕ → ℤ
  children_values : ℕ → ℤ → ℕ → ℚ
  children_rewards : ℕ → ℤ → ℕ → ℚ
  embeddings : ℕ → ℤ → E
  root_index : ℕ → ℤ

/-- Modelled from the spec: per-batch root-children visit probabilities of
`Tree.summary` (in `mctx/_src/search.py`, not under `src/`), over the
`num_actions` actions of the root pointed to by `root_index`. -/
def tree_visit_probs {E : Type} (num_actions : ℕ) (t : SearchTree E) (b : ℕ) :
    List ℚ :=
  normalize_counts
    ((List.range num_actions).map fun a =>
      ((t.children_visits b (t.root_index b) a : ℤ) : ℚ))

/-- Embeds the root update of `generate_next_action`
(policies.py lines 277-290): `new_root_index` is built per batch element as
`children_index[b, root_index[b], action[b]]` (a fori_loop over the batch
starting from an array filled with -1), `root_index` is overwritten with it
and `parents` is updated at the new root to `NO_PARENT` via `batch_update`
(in `mctx/_src/search.py`; modelled as the pointwise update it performs).
Every other field is left untouched. -/
def re_root {E : Type} (t : SearchTree E) (batch_size : ℕ) (action : ℕ → ℕ) :
    SearchTree E :=
  let new_root_index : ℕ → ℤ := fun b =>
    if b < batch_size then t.children_index b (t.root_index b) (action b) else -1
  { t with
    root_index := new_root_index
    parents := fun b n =>
      if b < batch_size ∧ n = new_root_index b then NO_PARENT else t.parents b n }

/-- Embeds `base.RootFnOutput`: prior logits, value and embedding per batch
element. -/
structure RootFnOutput (E : Type) where
  prior_logits : ℕ → List ℚ
  value : ℕ → ℚ
  embedding : ℕ → E

/-- Opaque collaborators of `muzero_policy_for_action_sequence`.  `E` is
the embedding type, `K` the rng key type.  The fields `simulate`, `expand`,
`backward` and `instantiate_tree_from_root` live in `mctx/_src/search.py`
(not under `src/`) and are abstracted as opaque functions, with the model
`recurrent_fn` and the PUCT action-selection functions folded into them;
`split3`/`splitN` abstract `jax.random.split`, `dirichletSample` the
Dirichlet draw, `categorical` the categorical draw (of the per-batch
action from per-batch logits), `lg`/`expf` the library log and exp. -/
structure MSParams (E K : Type) where
  split3 : K → K × K × K
  splitN : K → ℕ → List K
  batch_size : ℕ
  num_actions : ℕ
  num_simulations : ℕ
  num_actions_to_generate : ℕ
  temperature : ℚ
  dirichlet_fraction : ℚ
  lg : ℚ → ℚ
  expf : ℚ → ℚ
  dirichletSample : K → ℕ → ℕ → ℚ
  simulate : List K → SearchTree E → ℤ → (ℕ → ℤ) × (ℕ → ℕ)
  expand : K → SearchTree E → (ℕ → ℤ) → (ℕ → ℕ) → (ℕ → ℤ) → SearchTree E
  backward : SearchTree E → (ℕ → ℤ) → SearchTree E
  stopping_criteria_fn : (ℕ → E) → Bool
  categorical : K → (ℕ → List ℚ) → (ℕ → ℕ)
  instantiate_tree_from_root : RootFnOutput E → ℕ → (ℕ → List ℚ) → SearchTree E

/-- Loop state of the outer generation loop of
`muzero_policy_for_action_sequence`:
`(rng_key, tree, max_depth, performed_actions, stop_generating)`.
`performed_actions` is the `[B, num_actions_to_generate]` int32 array,
stored as a list over the generated-action axis of per-batch rows. -/
structure MSState (E K : Type) where
  rng_key : K
  tree : SearchTree E
  max_depth : ℤ
  performed_actions : List (ℕ → ℤ)
  stop_generating : Bool

/-- Embeds `jax.lax.fori_loop(lower, upper, body, init)`: apply `body` to
the carried state for counters `lower, lower+1, ..., upper-1`. -/
def foriLoop {σ : Type} (lower upper : ℕ) (body : ℕ → σ → σ) (init : σ) : σ :=
  (List.range' lower (upper - lower)).foldl (fun s i => body i s) init

/-- Embeds the target-node computation of `generate_next_action_inner`
(policies.py lines 251-253): the child slot already recorded for the chosen
edge, or `sim + 1` when that slot holds the `UNVISITED` sentinel (`sim` is
the 0-based fori_loop simulation counter, so the (sim+1)-st simulation
populates node index sim+1, node 0 being the initial root). -/
def next_node_index {E : Type} (t : SearchTree E) (parent_index : ℕ → ℤ)
    (action : ℕ → ℕ) (sim : ℕ) : ℕ → ℤ :=
  fun b =>
    if t.children_index b (parent_index b) (action b) = UNVISITED
    then (sim : ℤ) + 1
    else t.children_index b (parent_index b) (action b)

/-- Embeds `generate_next_action_inner` (policies.py lines 241-259): split
the rng key, simulate down the tree, compute the target node index, expand
it and run the backward pass.  The loop state is
`(rng_key, tree, max_depth)`. -/
def generate_next_action_inner {E K : Type} (P : MSParams E K) (sim : ℕ)
    (loop_state : K × SearchTree E × ℤ) : K × SearchTree E × ℤ :=
  let keys := P.split3 loop_state.1
  let simulate_keys := P.splitN keys.2.1 P.batch_size
  let pa := P.simulate simulate_keys loop_state.2.1 loop_state.2.2
  let idx := next_node_index loop_state.2.1 pa.1 pa.2 sim
  (keys.1,
   P.backward (P.expand keys.2.2 loop_state.2.1 pa.1 pa.2 idx) idx,
   loop_state.2.2)

/-- Embeds `generate_next_action` (policies.py lines 261-300): run the
simulation cycle for counters `g*num_simulations .. (g+1)*num_simulations - 1`
(dropping the inner loop's rng key, as the source does), sample the action
to perform from the temperature-scaled visit-count logits with the outer
key, re-root the tree at the chosen child, record the action in column `g`,
evaluate the stopping criterion on the new root's embedding, and decrement
`max_depth`. -/
def generate_next_action {E K : Type} (P : MSParams E K) (generated_action : ℕ)
    (loop_state : MSState E K) : MSState E K :=
  let ls := foriLoop (generated_action * P.num_simulations)
    ((generated_action + 1) * P.num_simulations)
    (generate_next_action_inner P)
    (loop_state.rng_key, loop_state.tree, loop_state.max_depth)
  let tree := ls.2.1
  let action_weights : ℕ → List ℚ := fun b => tree_visit_probs P.num_actions tree b
  let action_logits : ℕ → List ℚ := fun b =>
    _apply_temperature (_get_logits_from_probs P.lg (action_weights b)) P.temperature
  let action : ℕ → ℕ := P.categorical loop_state.rng_key action_logits
  let new_tree := re_root tree P.batch_size action
  let performed_actions :=
    loop_state.performed_actions.set generated_action fun b => (action b : ℤ)
  let root_embedding : ℕ → E := fun b => new_tree.embeddings b (new_tree.root_index b)
  { rng_key := loop_state.rng_key
    tree := new_tree
    max_depth := loop_state.max_depth - 1
    performed_actions := performed_actions
    stop_generating := P.stopping_criteria_fn root_embedding }

/-- Embeds `generate_next_action_stopping_wrapper`
(policies.py lines 302-309): when `stop_generating` holds or the
`max_depth` countdown is 0, return the loop state unchanged; otherwise run
`generate_next_action`. -/
def generate_next_action_stopping_wrapper {E K : Type} (P : MSParams E K)
    (generated_action : ℕ) (loop_state : MSState E K) : MSState E K :=
  if loop_state.stop_generating = true ∨ loop_state.max_depth = 0 then loop_state
  else generate_next_action P generated_action loop_state

/-- Embeds the `max_depth` defaulting of `muzero_policy_for_action_sequence`
(policies.py lines 236-237): an unset `max_depth` becomes
`num_simulations * num_actions_to_generate`. -/
def default_max_depth (max_depth : Option ℕ) (num_simulations : ℕ)
    (num_actions_to_generate : ℕ) : ℕ :=
  max_depth.getD (num_simulations * num_actions_to_generate)

/-- Modelled from the spec: the `max_depth` defaulting inside
`search.search` (in `mctx/_src/search.py`, not under `src/`), used by the
single-step `muzero_policy` and `gumbel_muzero_policy`: an unset
`max_depth` becomes `num_simulations`. -/
def search_default_max_depth (max_depth : Option ℕ) (num_simulations : ℕ) : ℕ :=
  max_depth.getD num_simulations

/-- Embeds the root preprocessing of `muzero_policy_for_action_sequence`
(policies.py lines 207-215) with `invalid_actions=None`: softmax, Dirichlet
noise, back to logits, and the (here trivial) invalid-action masking. -/
def ms_preprocessed_root {E K : Type} (P : MSParams E K) (dirichlet_rng_key : K)
    (root : RootFnOutput E) : RootFnOutput E :=
  { root with
    prior_logits := fun b =>
      _mask_invalid_actions
        (_get_logits_from_probs P.lg
          (_add_dirichlet_noise (P.dirichletSample dirichlet_rng_key b)
            (softmaxWith P.expf (root.prior_logits b)) P.dirichlet_fraction))
        none }

/-- Embeds the setup of `muzero_policy_for_action_sequence`
(policies.py lines 205-239 and 311-321): split the rng key (the search key
of the 3-way split is unused by this policy), preprocess the root, default
`max_depth`, replace a `None` invalid-actions mask by zeros, allocate the
tree for `num_actions_to_generate * num_simulations` simulations, and fill
`performed_actions` with the sentinel -1. -/
def ms_init_state {E K : Type} (P : MSParams E K) (rng_key : K)
    (root : RootFnOutput E) (max_depth : Option ℕ) : MSState E K :=
  let keys := P.split3 rng_key
  let root2 := ms_preprocessed_root P keys.2.1 root
  let invalid_actions : ℕ → List ℚ := fun b => (root2.prior_logits b).map fun _ => 0
  { rng_key := keys.1
    tree := P.instantiate_tree_from_root root2
      (P.num_actions_to_generate * P.num_simulations) invalid_actions
    max_depth := (default_max_depth max_depth P.num_simulations
      P.num_actions_to_generate : ℤ)
    performed_actions :=
      List.replicate P.num_actions_to_generate fun _ => (-1 : ℤ)
    stop_generating := false }

/-- The outer generation loop of `muzero_policy_for_action_sequence`
(policies.py lines 317-322): `num_actions_to_generate` rounds of the
stopping wrapper. -/
def ms_run {E K : Type} (P : MSParams E K) (rng_key : K) (root : RootFnOutput E)
    (max_depth : Option ℕ) : MSState E K :=
  foriLoop 0 P.num_actions_to_generate (generate_next_action_stopping_wrapper P)
    (ms_init_state P rng_key root max_depth)

/-- Embeds `base.PolicyOutput` as returned by the multi-step policy:
`action` is the `[B, num_actions_to_generate]` array of performed actions
(list over the generated-action axis), `action_weights` the returned
`jnp.empty((0,))`. -/
structure MSPolicyOutput (E : Type) where
  action : List (ℕ → ℤ)
  action_weights : List ℚ
  search_tree : SearchTree E

/-- The `NotImplementedError` message raised by
`muzero_policy_for_action_sequence` for a non-`None` `invalid_actions`. -/
def invalid_actions_error_message : String :=
  "`invalid_actions` are not supported as the root position in the tree changes, but `mctx._src.search.simulate` starts always at depth zero, taking into account the old invalid_actions of the initial root. To support this, a redesign is needed: 1. Are invalid actions different for different nodes in the tree, or does only the root have invalid actions? 2. Where to fetch invalid_actions of non-root nodes during the search?"

/-- Embeds `muzero_policy_for_action_sequence` (policies.py lines 122-327).
The very first statement of the body raises `NotImplementedError` when
`invalid_actions` is not `None`; this is the `.error` branch, taken before
the rng split, the root preprocessing, the tree allocation and any
simulation.  Otherwise the generation loop runs and the output carries the
performed actions, an empty `action_weights` array and the final tree. -/
def muzero_policy_for_action_sequence {E K : Type} (P : MSParams E K) (rng_key : K)
    (root : RootFnOutput E) (invalid_actions : Option (ℕ → List ℚ))
    (max_depth : Option ℕ) : Except String (MSPolicyOutput E) :=
  match invalid_actions with
  | some _ => .error invalid_actions_error_message
  | none =>
    let s := ms_run P rng_key root max_depth
    .ok { action := s.performed_actions
          action_weights := []
          search_tree := s.tree }

/-- A concrete tree with constant fields, for witness instantiations. -/
def trivialTree : SearchTree Unit where
  node_visits := fun _ _ => 0
  raw_values := fun _ _ => 0
  node_values := fun _ _ => 0
  parents := fun _ _ => 0
  action_from_parent := fun _ _ => 0
  children_index := fun _ _ _ => 0
  children_prior_logits := fun _ _ _ => 0
  children_visits := fun _ _ _ => 0
  children_values := fun _ _ _ => 0
  children_rewards := fun _ _ _ => 0
  embeddings := fun _ _ => ()
  root_index := fun _ => 0

/-- A concrete root output, for witness instantiations. -/
def trivialRoot : RootFnOutput Unit where
  prior_logits := fun _ => [0, 0]
  value := fun _ => 0
  embedding := fun _ => ()

/-- A concrete parameter bundle over trivial key/embedding types, for
witness instantiations. -/
def testParams (ns gen : ℕ) (stopFlag : Bool) : MSParams Unit Unit where
  split3 := fun _ => ((), (), ())
  splitN := fun _ n => List.replicate n ()
  batch_size := 1
  num_actions := 2
  num_simulations := ns
  num_actions_to_generate := gen
  temperature := 1
  dirichlet_fraction := 0
  lg := id
  expf := id
  dirichletSample := fun _ _ _ => 0
  simulate := fun _ _ _ => (fun _ => 0, fun _ => 0)
  expand := fun _ t _ _ _ => t
  backward := fun t _ => t
  stopping_criteria_fn := fun _ => stopFlag
  categorical := fun _ _ => fun _ => 0
  instantiate_tree_from_root := fun _ _ _ => trivialTree

/-- A concrete loop state, for witness instantiations. -/
def trivialMSState : MSState Unit Unit where
  rng_key := ()
  tree := trivialTree
  max_depth := 3
  performed_actions := [fun _ => (-1 : ℤ)]
  stop_generating := false

/-- The fold initial value is a lower bound of `foldl max`. -/
theorem le_foldl_max {α : Type} [LinearOrder α] (l : List α) (a : α) :
    a ≤ l.foldl max a := by
  induction l generalizing a with
  | nil => exact le_rfl
  | cons x xs ih =>
    exact le_trans (le_max_left a x) (ih (max a x))

/-- Every member of the list is bounded by `foldl max`. -/
theorem mem_le_foldl_max {α : Type} [LinearOrder α] (l : List α) (a : α) (x : α)
    (hx : x ∈ l) : x ≤ l.foldl max a := by
  induction l generalizing a with
  | nil => cases hx
  | cons y ys ih =>
    rcases List.mem_cons.mp hx with h | h
    · subst h
      exact le_trans (le_max_right a x) (le_foldl_max ys (max a x))
    · exact ih (max a y) h

/-- `foldl max` returns its initial value or a member of the list. -/
theorem foldl_max_eq_or_mem {α : Type} [LinearOrder α] (l : List α) (a : α) :
    l.foldl max a = a ∨ l.foldl max a ∈ l := by
  induction l generalizing a with
  | nil => exact Or.inl rfl
  | cons x xs ih =>
    rcases ih (max a x) with h | h
    · rcases max_choice a x with hm | hm
      · exact Or.inl (by simpa [hm] using h)
      · exact Or.inr (by simp only [List.foldl_cons]; rw [h, hm]; exact List.mem_cons_self x xs)
    · exact Or.inr (List.mem_cons_of_mem x h)

/-- Every member of a list is bounded by `listMaxD`. -/
theorem le_listMaxD {α : Type} [LinearOrder α] (l : List α) (d : α) (x : α)
    (hx : x ∈ l) : x ≤ listMaxD l d :=
  mem_le_foldl_max l (l.headD d) x hx

/-- For a nonempty list, `listMaxD` is a member. -/
theorem listMaxD_mem {α : Type} [LinearOrder α] (l : List α) (d : α) (h : l ≠ []) :
    listMaxD l d ∈ l := by
  cases l with
  | nil => cases h rfl
  | cons x xs =>
    unfold listMaxD
    simp only [List.headD_cons, List.foldl_cons, max_self]
    rcases foldl_max_eq_or_mem xs x with h2 | h2
    · rw [h2]; exact List.mem_cons_self x xs
    · exact List.mem_cons_of_mem x h2

/-- `argmaxIdx` of a nonempty list is in bounds. -/
theorem argmaxIdx_lt_length {α : Type} [LinearOrder α] (l : List α) (h : l ≠ []) :
    argmaxIdx l < l.length := by
  induction l with
  | nil => cases h rfl
  | cons x xs ih =>
    rw [argmaxIdx]
    split
    case isTrue hlt =>
      have hxs : xs ≠ [] := by
        intro he
        subst he
        simp [List.getD] at hlt
      simpa using Nat.succ_lt_succ (ih hxs)
    case isFalse => simp

/-- The element at `argmaxIdx` bounds every element of the list. -/
theorem getD_le_getD_argmaxIdx {α : Type} [LinearOrder α] (l : List α) (d : α)
    (k : ℕ) (hk : k < l.length) : l.getD k d ≤ l.getD (argmaxIdx l) d := by
  induction l generalizing k with
  | nil => simp at hk
  | cons x xs ih =>
    rw [argmaxIdx]
    split
    case isTrue hlt =>
      have hxs : xs ≠ [] := by
        intro he
        subst he
        simp [List.getD] at hlt
      have hj : argmaxIdx xs < xs.length := argmaxIdx_lt_length xs hxs
      have hdx : xs.getD (argmaxIdx xs) d = xs.getD (argmaxIdx xs) x := by
        rw [List.getD_eq_getElem _ _ hj, List.getD_eq_getElem _ _ hj]
      rw [List.getD_cons_succ]
      cases k with
      | zero =>
        rw [List.getD_cons_zero, hdx]
        exact le_of_lt hlt
      | succ m =>
        rw [List.getD_cons_succ]
        exact ih m (by simpa using Nat.lt_of_succ_lt_succ hk)
    case isFalse hnlt =>
      rw [List.getD_cons_zero]
      cases k with
      | zero => exact le_rfl
      | succ m =>
        rw [List.getD_cons_succ]
        have hm : m < xs.length := by simpa using Nat.lt_of_succ_lt_succ hk
        have hxs : xs ≠ [] := by
          intro he
          subst he
          simp at hm
        have hj : argmaxIdx xs < xs.length := argmaxIdx_lt_length xs hxs
        have hdx : xs.getD (argmaxIdx xs) d = xs.getD (argmaxIdx xs) x := by
          rw [List.getD_eq_getElem _ _ hj, List.getD_eq_getElem _ _ hj]
        calc xs.getD m d ≤ xs.getD (argmaxIdx xs) d := ih m hm
          _ = xs.getD (argmaxIdx xs) x := hdx
          _ ≤ x := not_lt.mp hnlt

/-- `argmaxIdx` returns the first index whose element attains the maximum:
any index whose element is at least the argmax element is at or after it. -/
theorem argmaxIdx_le_of_getD_le {α : Type} [LinearOrder α] (l : List α) (d : α)
    (k : ℕ) (hk : k < l.length) (h : l.getD (argmaxIdx l) d ≤ l.getD k d) :
    argmaxIdx l ≤ k := by
  induction l generalizing k with
  | nil => simp at hk
  | cons x xs ih =>
    rw [argmaxIdx] at h ⊢
    split at h
    case isTrue hlt =>
      rw [if_pos hlt]
      have hxs : xs ≠ [] := by
        intro he
        subst he
        simp [List.getD] at hlt
      have hj : argmaxIdx xs < xs.length := argmaxIdx_lt_length xs hxs
      have hdx : xs.getD (argmaxIdx xs) d = xs.getD (argmaxIdx xs) x := by
        rw [List.getD_eq_getElem _ _ hj, List.getD_eq_getElem _ _ hj]
      rw [List.getD_cons_succ] at h
      cases k with
      | zero =>
        rw [List.getD_cons_zero] at h
        exact absurd (lt_of_lt_of_le (hdx ▸ hlt) h) (lt_irrefl x)
      | succ m =>
        rw [List.getD_cons_succ] at h
        exact Nat.succ_le_succ (ih m (by simpa using Nat.lt_of_succ_lt_succ hk) h)
    case isFalse hnlt =>
      rw [if_neg hnlt]
      exact Nat.zero_le k

/-- If one element strictly dominates all others, `argmaxIdx` returns its
index. -/
theorem argmaxIdx_eq_of_strict {α : Type} [LinearOrder α] (l : List α) (d : α)
    (i : ℕ) (hi : i < l.length)
    (hstrict : ∀ j, j < l.length → j ≠ i → l.getD j d < l.getD i d) :
    argmaxIdx l = i := by
  have hne : l ≠ [] := by
    intro he
    subst he
    simp at hi
  have ha : argmaxIdx l < l.length := argmaxIdx_lt_length l hne
  by_contra hne2
  have h1 : l.getD i d ≤ l.getD (argmaxIdx l) d := getD_le_getD_argmaxIdx l d i hi
  have h2 : l.getD (argmaxIdx l) d < l.getD i d := hstrict (argmaxIdx l) ha hne2
  exact absurd (lt_of_le_of_lt h1 h2) (lt_irrefl _)

/-- `getD` through `map`, in bounds. -/
theorem getD_map_lt {α β : Type} (f : α → β) (l : List α) (j : ℕ)
    (hj : j < l.length) (d : β) (d2 : α) :
    (l.map f).getD j d = f (l.getD j d2) := by
  rw [List.getD_eq_getElem _ _ (by simpa using hj), List.getD_eq_getElem _ _ hj]
  simp

/-- `getD` through `map` over `List.range`, in bounds. -/
theorem getD_range_map_lt {β : Type} (f : ℕ → β) (n : ℕ) (j : ℕ) (hj : j < n)
    (d : β) : ((List.range n).map f).getD j d = f j := by
  rw [List.getD_eq_getElem _ _ (by simpa using hj)]
  simp

/-- `getD` through `zipWith`, in bounds. -/
theorem getD_zipWith_lt {α β γ : Type} (f : α → β → γ) (l : List α) (l2 : List β)
    (j : ℕ) (hj : j < l.length) (hj2 : j < l2.length) (d : γ) (da : α) (db : β) :
    (List.zipWith f l l2).getD j d = f (l.getD j da) (l2.getD j db) := by
  have hlen : j < (List.zipWith f l l2).length := by
    simp only [List.length_zipWith]
    exact lt_min hj hj2
  rw [List.getD_eq_getElem _ _ hlen, List.getD_eq_getElem _ _ hj,
    List.getD_eq_getElem _ _ hj2]
  exact List.getElem_zipWith

/-- Mixing with fraction 0 is the identity, from any starting position. -/
theorem _add_dirichlet_noise_from_zero (noise : ℕ → ℚ) :
    ∀ (i : ℕ) (ps : List ℚ), _add_dirichlet_noise_from noise 0 i ps = ps := by
  intro i ps
  induction ps generalizing i with
  | nil => rfl
  | cons p ps ih =>
    rw [_add_dirichlet_noise_from]
    rw [ih (i + 1)]
    norm_num

/-- Claim C9: `_add_dirichlet_noise` with `dirichlet_fraction = 0` returns
the probabilities unchanged, for every realized Dirichlet noise vector;
consequently the root priors computed by `muzero_policy` (softmax, noise
mixing, log, masking) are independent of the Dirichlet rng stream when the
fraction is 0. -/
theorem dirichlet_fraction_zero_identity :
    (∀ (noise : ℕ → ℚ) (probs : List ℚ), _add_dirichlet_noise noise probs 0 = probs)
    ∧ (∀ (expf lg : ℚ → ℚ) (noise1 noise2 : ℕ → ℚ) (prior_logits : List ℚ)
        (invalid_actions : Option (List Bool)),
        muzero_root_priors expf lg noise1 prior_logits invalid_actions 0
          = muzero_root_priors expf lg noise2 prior_logits invalid_actions 0) := by
  constructor
  · intro noise probs
    exact _add_dirichlet_noise_from_zero noise 0 probs
  · intro expf lg noise1 noise2 prior_logits invalid_actions
    unfold muzero_root_priors
    rw [_add_dirichlet_noise]
    rw [_add_dirichlet_noise]
    rw [_add_dirichlet_noise_from_zero, _add_dirichlet_noise_from_zero]

/-- Claim C8: `_mask_invalid_actions` substitutes the finite float32
minimum `minLogitF32` (not minus infinity) at invalid positions — for any
mask, including an all-invalid one — and keeps the max-shifted logit at
valid positions; `_get_logits_from_probs` floors every probability at the
smallest positive float32 `tinyF32` before taking the logarithm, so the
logarithm is only ever evaluated at arguments bounded below by the positive
constant `tinyF32`, never at 0 (where it would be minus infinity), even for
all-zero probability vectors. -/
theorem mask_and_log_helpers_finite (logits : List ℚ) (inv : List Bool) (i : ℕ)
    (hi : i < logits.length) (lg : ℚ → ℚ) (probs : List ℚ) (j : ℕ)
    (hj : j < probs.length) :
    ((inv.getD i false = true →
        (_mask_invalid_actions logits (some inv)).getD i 0 = minLogitF32)
      ∧ (inv.getD i false = false →
        (_mask_invalid_actions logits (some inv)).getD i 0
          = logits.getD i 0 - listMaxD logits 0))
    ∧ minLogitF32 = -(2 ^ 128 - 2 ^ 104)
    ∧ (0 : ℚ) < tinyF32
    ∧ (_get_logits_from_probs lg probs).getD j 0 = lg (max (probs.getD j 0) tinyF32)
    ∧ tinyF32 ≤ max (probs.getD j 0) tinyF32 := by
  refine ⟨⟨?_, ?_⟩, rfl, by norm_num [tinyF32], ?_, le_max_right _ _⟩
  · intro hmask
    unfold _mask_invalid_actions
    rw [getD_range_map_lt _ _ _ hi]
    rw [if_pos hmask]
  · intro hmask
    unfold _mask_invalid_actions
    rw [getD_range_map_lt _ _ _ hi]
    rw [if_neg (by rw [hmask]; exact Bool.false_ne_true)]
  · unfold _get_logits_from_probs
    rw [getD_map_lt _ _ _ hj _ 0]

/-- Witness for C8 at a concrete input: action 0 invalid, action 1 valid,
and a zero probability floored at `tinyF32`. -/
theorem mask_and_log_helpers_finite_witness :
    ((0 : ℕ) < ([0, 1] : List ℚ).length ∧ (0 : ℕ) < ([(0 : ℚ)] : List ℚ).length)
    ∧ ((([true, false] : List Bool).getD 0 false = true →
        (_mask_invalid_actions [0, 1] (some [true, false])).getD 0 0 = minLogitF32)
      ∧ (([true, false] : List Bool).getD 0 false = false →
        (_mask_invalid_actions [0, 1] (some [true, false])).getD 0 0
          = ([0, 1] : List ℚ).getD 0 0 - listMaxD [0, 1] 0))
    ∧ minLogitF32 = -(2 ^ 128 - 2 ^ 104)
    ∧ (0 : ℚ) < tinyF32
    ∧ (_get_logits_from_probs id [0]).getD 0 0 = id (max (([(0 : ℚ)] : List ℚ).getD 0 0) tinyF32)
    ∧ tinyF32 ≤ max (([(0 : ℚ)] : List ℚ).getD 0 0) tinyF32 :=
  ⟨⟨by decide, by decide⟩,
    mask_and_log_helpers_finite [0, 1] [true, false] 0 (by decide) id [0] 0 (by decide)⟩

/-- Claim C2: with a non-`None` `invalid_actions` mask, the multi-step
policy fails immediately with the `NotImplementedError` message, and the
result does not depend on any other input — in particular not on the
opaque model, tree-allocation and simulation components inside `MSParams` —
so no tree is allocated, no model call happens and no simulation runs. -/
theorem action_sequence_invalid_actions_fail_fast {E K : Type}
    (P P2 : MSParams E K) (rng1 rng2 : K) (root1 root2 : RootFnOutput E)
    (mask1 mask2 : ℕ → List ℚ) (md1 md2 : Option ℕ) :
    muzero_policy_for_action_sequence P rng1 root1 (some mask1) md1
        = Except.error invalid_actions_error_message
    ∧ muzero_policy_for_action_sequence P rng1 root1 (some mask1) md1
        = muzero_policy_for_action_sequence P2 rng2 root2 (some mask2) md2 :=
  ⟨rfl, rfl⟩

/-- Claim C3: each simulation step of the multi-step policy expands and
backs up the node index computed from the chosen edge: the recorded child
index when the edge is already expanded, and `sim + 1` when the edge holds
the `UNVISITED` sentinel — `sim` being the 0-based global simulation
counter, so the (sim+1)-st simulation populates node index sim+1, with node
0 the initial root. -/
theorem expansion_node_index_spec {E K : Type} (P : MSParams E K) (sim : ℕ)
    (rng_key : K) (tree : SearchTree E) (max_depth : ℤ) :
    ∃ (parent_index : ℕ → ℤ) (action : ℕ → ℕ) (idx : ℕ → ℤ),
      (parent_index, action)
          = P.simulate (P.splitN (P.split3 rng_key).2.1 P.batch_size) tree max_depth
      ∧ generate_next_action_inner P sim (rng_key, tree, max_depth)
          = ((P.split3 rng_key).1,
             P.backward (P.expand (P.split3 rng_key).2.2 tree parent_index action idx)
               idx,
             max_depth)
      ∧ (∀ b, idx b =
          if tree.children_index b (parent_index b) (action b) = UNVISITED
          then (sim : ℤ) + 1
          else tree.children_index b (parent_index b) (action b)) := by
  refine ⟨(P.simulate (P.splitN (P.split3 rng_key).2.1 P.batch_size) tree max_depth).1,
    (P.simulate (P.splitN (P.split3 rng_key).2.1 P.batch_size) tree max_depth).2,
    next_node_index tree
      (P.simulate (P.splitN (P.split3 rng_key).2.1 P.batch_size) tree max_depth).1
      (P.simulate (P.splitN (P.split3 rng_key).2.1 P.batch_size) tree max_depth).2 sim,
    rfl, rfl, fun b => rfl⟩

/-- Counterexample to claim C6 as stated: with `num_simulations = 3` and
`num_actions_to_generate = 2` and an unset `max_depth`, the multi-step
policy initializes the loop with `max_depth = 6`, not `num_simulations = 3`. -/
theorem max_depth_default_counterexample :
    (ms_init_state (testParams 3 2 false) () trivialRoot none).max_depth = 6
    ∧ (6 : ℤ) ≠ 3 := by
  constructor
  · rfl
  · decide

/-- Claim C6 (amended): with `max_depth` unset, the single-step policies
run the search with `max_depth = num_simulations` (the default inside
`search.search`), while the multi-step policy uses
`num_simulations * num_actions_to_generate`. -/
theorem max_depth_default_values :
    (∀ (num_simulations : ℕ),
      search_default_max_depth none num_simulations = num_simulations)
    ∧ (∀ {E K : Type} (P : MSParams E K) (rng_key : K) (root : RootFnOutput E),
        (ms_init_state P rng_key root none).max_depth
          = ((P.num_simulations * P.num_actions_to_generate : ℕ) : ℤ)) := by
  constructor
  · intro num_simulations
    rfl
  · intro E K P rng_key root
    rfl

/-- Claim C7: for every batch element `b < batch_size`, re-rooting sets
`root_index b` to `children_index b (old root) (action b)` and the parents
entry of that new root to `NO_PARENT`; the parents entries of every other
node and every other field of the tree (node statistics, children arrays,
embeddings) are unchanged — no array contents are relocated. -/
theorem re_root_frame {E : Type} (t : SearchTree E) (batch_size : ℕ)
    (action : ℕ → ℕ) (b : ℕ) (hb : b < batch_size) :
    (re_root t batch_size action).root_index b
        = t.children_index b (t.root_index b) (action b)
    ∧ (re_root t batch_size action).parents b
        (t.children_index b (t.root_index b) (action b)) = NO_PARENT
    ∧ (∀ n, n ≠ t.children_index b (t.root_index b) (action b) →
        (re_root t batch_size action).parents b n = t.parents b n)
    ∧ (re_root t batch_size action).node_visits = t.node_visits
    ∧ (re_root t batch_size action).raw_values = t.raw_values
    ∧ (re_root t batch_size action).node_values = t.node_values
    ∧ (re_root t batch_size action).action_from_parent = t.action_from_parent
    ∧ (re_root t batch_size action).children_index = t.children_index
    ∧ (re_root t batch_size action).children_prior_logits = t.children_prior_logits
    ∧ (re_root t batch_size action).children_visits = t.children_visits
    ∧ (re_root t batch_size action).children_values = t.children_values
    ∧ (re_root t batch_size action).children_rewards = t.children_rewards
    ∧ (re_root t batch_size action).embeddings = t.embeddings := by
  refine ⟨?_, ?_, ?_, rfl, rfl, rfl, rfl, rfl, rfl, rfl, rfl, rfl, rfl⟩
  · show (if b < batch_size then t.children_index b (t.root_index b) (action b)
      else -1) = t.children_index b (t.root_index b) (action b)
    rw [if_pos hb]
  · show (if b < batch_size
        ∧ t.children_index b (t.root_index b) (action b)
          = (if b < batch_size then t.children_index b (t.root_index b) (action b)
             else -1)
      then NO_PARENT else t.parents b (t.children_index b (t.root_index b) (action b)))
      = NO_PARENT
    rw [if_pos ⟨hb, by rw [if_pos hb]⟩]
  · intro n hn
    show (if b < batch_size
        ∧ n = (if b < batch_size then t.children_index b (t.root_index b) (action b)
               else -1)
      then NO_PARENT else t.parents b n) = t.parents b n
    rw [if_neg]
    intro hcon
    exact hn (by rw [hcon.2, if_pos hb])

/-- Witness for C7 at a concrete tree and batch element. -/
theorem re_root_frame_witness :
    (0 : ℕ) < 1
    ∧ ((re_root trivialTree 1 (fun _ => 0)).root_index 0
        = trivialTree.children_index 0 (trivialTree.root_index 0) 0
      ∧ (re_root trivialTree 1 (fun _ => 0)).parents 0
          (trivialTree.children_index 0 (trivialTree.root_index 0) 0) = NO_PARENT
      ∧ (∀ n, n ≠ trivialTree.children_index 0 (trivialTree.root_index 0) 0 →
          (re_root trivialTree 1 (fun _ => 0)).parents 0 n = trivialTree.parents 0 n)
      ∧ (re_root trivialTree 1 (fun _ => 0)).node_visits = trivialTree.node_visits
      ∧ (re_root trivialTree 1 (fun _ => 0)).raw_values = trivialTree.raw_values
      ∧ (re_root trivialTree 1 (fun _ => 0)).node_values = trivialTree.node_values
      ∧ (re_root trivialTree 1 (fun _ => 0)).action_from_parent
          = trivialTree.action_from_parent
      ∧ (re_root trivialTree 1 (fun _ => 0)).children_index
          = trivialTree.children_index
      ∧ (re_root trivialTree 1 (fun _ => 0)).children_prior_logits
          = trivialTree.children_prior_logits
      ∧ (re_root trivialTree 1 (fun _ => 0)).children_visits
          = trivialTree.children_visits
      ∧ (re_root trivialTree 1 (fun _ => 0)).children_values
          = trivialTree.children_values
      ∧ (re_root trivialTree 1 (fun _ => 0)).children_rewards
          = trivialTree.children_rewards
      ∧ (re_root trivialTree 1 (fun _ => 0)).embeddings = trivialTree.embeddings) :=
  ⟨by decide, re_root_frame trivialTree 1 (fun _ => 0) 0 (by decide)⟩

/-- Elementwise form of `_apply_temperature`, in bounds. -/
theorem _apply_temperature_getD (logits : List ℚ) (temperature : ℚ) (j : ℕ)
    (hj : j < logits.length) :
    (_apply_temperature logits temperature).getD j 0
      = (logits.getD j 0 - listMaxD logits 0) / max tinyF32 temperature := by
  unfold _apply_temperature
  exact getD_map_lt _ logits j hj 0 0

/-- Counterexample to claim C5 as stated: with visit counts `[1, 1]` tied at
the maximum and temperature 0, the action returned by the final sampling of
`muzero_policy` depends on the realized Gumbel noise of the categorical
draw (noise `[0, 1]` yields action 1), so on equal visit counts the tie is
not broken deterministically by lowest action index regardless of the rng
key. -/
theorem temperature_zero_tie_counterexample :
    ¬ (∀ (lg : ℚ → ℚ) (noise : List ℚ), muzero_final_action lg noise [1, 1] 0 = 0) := by
  intro h
  have h1 := h id [0, 1]
  revert h1
  norm_num [muzero_final_action, categoricalSample, _apply_temperature,
    _get_logits_from_probs, visit_probs_of_counts, normalize_counts, listMaxD,
    argmaxIdx, tinyF32]

/-- Claim C5 (amended): at temperature 0 the final sampling of
`muzero_policy` returns the argmax of the visit counts whenever that argmax
is unique, regardless of the rng key: for any noise vector bounded by
`Bnd` (the realized float32 Gumbel noise is finite and far below the
`1/tinyF32` scale) and any log whose values leave a gap larger than
`2*Bnd*tinyF32` between the top visit probability and the rest, the
returned action is the unique argmax index `i`.  On tied maximal visit
counts the choice among the tied actions depends on the rng key (see the
counterexample), not on the lowest index. -/
theorem temperature_zero_unique_max_action (lg : ℚ → ℚ) (noise : List ℚ)
    (vc : List ℕ) (i : ℕ) (Bnd : ℚ)
    (hlen : noise.length = vc.length) (hi : i < vc.length)
    (hnoise : ∀ j, j < noise.length → |noise.getD j 0| ≤ Bnd)
    (hgap : ∀ j, j < vc.length → j ≠ i →
      (_get_logits_from_probs lg (visit_probs_of_counts vc)).getD j 0
          + 2 * Bnd * tinyF32
        < (_get_logits_from_probs lg (visit_probs_of_counts vc)).getD i 0) :
    muzero_final_action lg noise vc 0 = i := by
  have htiny : (0 : ℚ) < tinyF32 := by norm_num [tinyF32]
  have hBnd : (0 : ℚ) ≤ Bnd :=
    le_trans (abs_nonneg _) (hnoise i (by rw [hlen]; exact hi))
  unfold muzero_final_action categoricalSample
  set L := _get_logits_from_probs lg (visit_probs_of_counts vc) with hL
  have hLlen : L.length = vc.length := by
    rw [hL]
    unfold _get_logits_from_probs visit_probs_of_counts normalize_counts
    rw [List.length_map, List.length_map, List.length_map]
  have hiL : i < L.length := by rw [hLlen]; exact hi
  have hM : listMaxD L 0 = L.getD i 0 := by
    have hne : L ≠ [] := List.ne_nil_of_length_pos (Nat.pos_of_ne_zero (by omega))
    have hmem : listMaxD L 0 ∈ L := listMaxD_mem L 0 hne
    obtain ⟨k, hk, hkeq⟩ := List.mem_iff_getElem.mp hmem
    by_cases hki : k = i
    · subst hki
      rw [List.getD_eq_getElem _ _ hiL]
      exact hkeq.symm
    · exfalso
      have h1 : L.getD k 0 + 2 * Bnd * tinyF32 < L.getD i 0 :=
        hgap k (by rw [← hLlen]; exact hk) hki
      have h2 : L.getD i 0 ≤ listMaxD L 0 := by
        refine le_listMaxD L 0 _ ?_
        rw [List.getD_eq_getElem _ _ hiL]
        exact List.getElem_mem hiL
      have h3 : L.getD k 0 = listMaxD L 0 := by
        rw [List.getD_eq_getElem _ _ hk, hkeq]
      nlinarith
  have hatl : (_apply_temperature L 0).length = L.length := by
    unfold _apply_temperature
    exact List.length_map _ _
  apply argmaxIdx_eq_of_strict _ 0 i
  · simp only [List.length_zipWith, hatl, hLlen, hlen]
    simpa using hi
  · intro j hj hji
    simp only [List.length_zipWith, hatl, hLlen, hlen, min_self] at hj
    have hjL : j < L.length := by rw [hLlen]; exact hj
    have hjn : j < noise.length := by rw [hlen]; exact hj
    have hin : i < noise.length := by rw [hlen]; exact hi
    rw [getD_zipWith_lt _ _ _ j (by rw [hatl]; exact hjL) hjn 0 0 0]
    rw [getD_zipWith_lt _ _ _ i (by rw [hatl]; exact hiL) hin 0 0 0]
    rw [_apply_temperature_getD L 0 j hjL, _apply_temperature_getD L 0 i hiL]
    rw [hM, max_eq_left (le_of_lt htiny), sub_self, zero_div, zero_add]
    have hg := hgap j hj hji
    have hnj : noise.getD j 0 ≤ Bnd := (abs_le.mp (hnoise j hjn)).2
    have hni : -Bnd ≤ noise.getD i 0 := (abs_le.mp (hnoise i hin)).1
    have key : (L.getD j 0 - L.getD i 0) / tinyF32 < -(2 * Bnd) := by
      rw [div_lt_iff₀ htiny]
      nlinarith
    linarith

/-- Witness for the amended C5 at a concrete input: visit counts `[2, 1]`
with unique argmax 0, log modelled by `id`, zero noise bound. -/
theorem temperature_zero_unique_max_action_witness :
    (([(0 : ℚ), 0] : List ℚ).length = ([2, 1] : List ℕ).length
      ∧ (0 : ℕ) < ([2, 1] : List ℕ).length
      ∧ (∀ j, j < ([(0 : ℚ), 0] : List ℚ).length →
          |([(0 : ℚ), 0] : List ℚ).getD j 0| ≤ (0 : ℚ))
      ∧ (∀ j, j < ([2, 1] : List ℕ).length → j ≠ 0 →
          (_get_logits_from_probs id (visit_probs_of_counts [2, 1])).getD j 0
              + 2 * 0 * tinyF32
            < (_get_logits_from_probs id (visit_probs_of_counts [2, 1])).getD 0 0))
    ∧ muzero_final_action id [0, 0] [2, 1] 0 = 0 :=
  ⟨⟨rfl, by decide,
    by
      intro j hj
      simp only [List.length_cons, List.length_nil] at hj
      interval_cases j <;> norm_num,
    by
      intro j hj hne
      simp only [List.length_cons, List.length_nil] at hj
      interval_cases j
      · exact absurd rfl hne
      · norm_num [_get_logits_from_probs, visit_probs_of_counts, normalize_counts,
          listMaxD, tinyF32]⟩,
    temperature_zero_unique_max_action id [0, 0] [2, 1] 0 0 rfl (by decide)
      (by
        intro j hj
        simp only [List.length_cons, List.length_nil] at hj
        interval_cases j <;> norm_num)
      (by
        intro j hj hne
        simp only [List.length_cons, List.length_nil] at hj
        interval_cases j
        · exact absurd rfl hne
        · norm_num [_get_logits_from_probs, visit_probs_of_counts, normalize_counts,
            listMaxD, tinyF32])⟩

/-- Elementwise form of `score_considered`, in bounds. -/
theorem score_considered_getD (considered_visit : ℤ)
    (gumbel logits qvalues : List ℚ) (visit_counts : List ℤ) (k : ℕ)
    (hk : k < visit_counts.length) :
    (score_considered considered_visit gumbel logits qvalues visit_counts).getD k ⊥
      = if visit_counts.getD k 0 = considered_visit
        then ((gumbel.getD k 0 + logits.getD k 0 + qvalues.getD k 0 : ℚ) : WithBot ℚ)
        else ⊥ := by
  unfold score_considered
  exact getD_range_map_lt _ _ _ hk _

/-- Claim C1: the action returned by the final selection of
`gumbel_muzero_policy` is a valid action whose root visit count equals the
maximum root visit count, and among all such actions it maximizes
`gumbel + prior_logit + completed_Q`, with ties broken by lowest action
index; it is computed deterministically from the search outputs, with no
sampling from the visit-count distribution.  The hypothesis requires some
valid action to attain the maximum visit count (as is the case after a
search that only visits valid root actions). -/
theorem gumbel_final_action_spec (gumbel prior_logits completed_qvalues : List ℚ)
    (visit_counts : List ℤ) (inv : List Bool)
    (hex : ∃ a, a < visit_counts.length ∧ inv.getD a false = false ∧
      visit_counts.getD a 0 = listMaxD visit_counts 0) :
    ∃ act, act = gumbel_muzero_final_action gumbel prior_logits completed_qvalues
        visit_counts (some inv)
      ∧ act < visit_counts.length
      ∧ inv.getD act false = false
      ∧ visit_counts.getD act 0 = listMaxD visit_counts 0
      ∧ (∀ b, b < visit_counts.length → inv.getD b false = false →
          visit_counts.getD b 0 = listMaxD visit_counts 0 →
          gumbel.getD b 0 + prior_logits.getD b 0 + completed_qvalues.getD b 0
            ≤ gumbel.getD act 0 + prior_logits.getD act 0
              + completed_qvalues.getD act 0)
      ∧ (∀ b, b < visit_counts.length → inv.getD b false = false →
          visit_counts.getD b 0 = listMaxD visit_counts 0 →
          gumbel.getD b 0 + prior_logits.getD b 0 + completed_qvalues.getD b 0
            = gumbel.getD act 0 + prior_logits.getD act 0
              + completed_qvalues.getD act 0 →
          act ≤ b) := by
  obtain ⟨a, ha, hainv, hamax⟩ := hex
  set sc := score_considered (listMaxD visit_counts 0) gumbel prior_logits
    completed_qvalues visit_counts with hsc
  have hscn : sc.length = visit_counts.length := by
    rw [hsc]
    unfold score_considered
    rw [List.length_map, List.length_range]
  set ms := (List.range sc.length).map fun k =>
    if inv.getD k false then (⊥ : WithBot ℚ) else sc.getD k ⊥ with hms
  have hmslen : ms.length = visit_counts.length := by
    rw [hms, List.length_map, List.length_range, hscn]
  have hmsval : ∀ k, k < visit_counts.length →
      ms.getD k ⊥
        = if inv.getD k false then (⊥ : WithBot ℚ)
          else if visit_counts.getD k 0 = listMaxD visit_counts 0
          then ((gumbel.getD k 0 + prior_logits.getD k 0
            + completed_qvalues.getD k 0 : ℚ) : WithBot ℚ)
          else ⊥ := by
    intro k hk
    rw [hms]
    rw [getD_range_map_lt _ _ _ (by rw [hscn]; exact hk) ⊥]
    by_cases hik : inv.getD k false = true
    · rw [if_pos hik, if_pos hik]
    · rw [if_neg hik, if_neg hik, hsc,
        score_considered_getD _ _ _ _ _ k hk]
  have hmsnil : ms ≠ [] :=
    List.ne_nil_of_length_pos (by rw [hmslen]; exact lt_of_le_of_lt (Nat.zero_le a) ha)
  have hactlt : argmaxIdx ms < visit_counts.length := by
    rw [← hmslen]
    exact argmaxIdx_lt_length ms hmsnil
  have hval_a : ms.getD a ⊥
      = ((gumbel.getD a 0 + prior_logits.getD a 0
          + completed_qvalues.getD a 0 : ℚ) : WithBot ℚ) := by
    rw [hmsval a ha, hainv, if_neg Bool.false_ne_true, if_pos hamax]
  have hle_a : ms.getD a ⊥ ≤ ms.getD (argmaxIdx ms) ⊥ :=
    getD_le_getD_argmaxIdx ms ⊥ a (by rw [hmslen]; exact ha)
  have hactinv : inv.getD (argmaxIdx ms) false = false := by
    by_cases hia : inv.getD (argmaxIdx ms) false = true
    · exfalso
      rw [hval_a, hmsval _ hactlt, if_pos hia] at hle_a
      exact WithBot.not_coe_le_bot _ hle_a
    · exact Bool.eq_false_iff.mpr hia
  have hactmax : visit_counts.getD (argmaxIdx ms) 0 = listMaxD visit_counts 0 := by
    by_cases hva : visit_counts.getD (argmaxIdx ms) 0 = listMaxD visit_counts 0
    · exact hva
    · exfalso
      rw [hval_a, hmsval _ hactlt, hactinv, if_neg Bool.false_ne_true,
        if_neg hva] at hle_a
      exact WithBot.not_coe_le_bot _ hle_a
  have hval_act : ms.getD (argmaxIdx ms) ⊥
      = ((gumbel.getD (argmaxIdx ms) 0 + prior_logits.getD (argmaxIdx ms) 0
          + completed_qvalues.getD (argmaxIdx ms) 0 : ℚ) : WithBot ℚ) := by
    rw [hmsval _ hactlt, hactinv, if_neg Bool.false_ne_true, if_pos hactmax]
  refine ⟨argmaxIdx ms, ?_, hactlt, hactinv, hactmax, ?_, ?_⟩
  · rw [hms, hsc]
    rfl
  · intro b hb hbinv hbmax
    have hval_b : ms.getD b ⊥
        = ((gumbel.getD b 0 + prior_logits.getD b 0
            + completed_qvalues.getD b 0 : ℚ) : WithBot ℚ) := by
      rw [hmsval b hb, hbinv, if_neg Bool.false_ne_true, if_pos hbmax]
    have hle_b : ms.getD b ⊥ ≤ ms.getD (argmaxIdx ms) ⊥ :=
      getD_le_getD_argmaxIdx ms ⊥ b (by rw [hmslen]; exact hb)
    rw [hval_b, hval_act] at hle_b
    exact_mod_cast hle_b
  · intro b hb hbinv hbmax heq
    have hval_b : ms.getD b ⊥
        = ((gumbel.getD b 0 + prior_logits.getD b 0
            + completed_qvalues.getD b 0 : ℚ) : WithBot ℚ) := by
      rw [hmsval b hb, hbinv, if_neg Bool.false_ne_true, if_pos hbmax]
    refine argmaxIdx_le_of_getD_le ms ⊥ b (by rw [hmslen]; exact hb) ?_
    rw [hval_b, hval_act, heq]

/-- Witness for C1 at a concrete input: two valid actions tied at the
maximum visit count, distinguished by their prior logits. -/
theorem gumbel_final_action_spec_witness :
    (∃ a, a < ([3, 3] : List ℤ).length ∧ ([false, false] : List Bool).getD a false = false ∧
      ([3, 3] : List ℤ).getD a 0 = listMaxD ([3, 3] : List ℤ) 0)
    ∧ ∃ act, act = gumbel_muzero_final_action [0, 0] [5, 1] [0, 0] [3, 3] (some [false, false])
      ∧ act < ([3, 3] : List ℤ).length
      ∧ ([false, false] : List Bool).getD act false = false
      ∧ ([3, 3] : List ℤ).getD act 0 = listMaxD ([3, 3] : List ℤ) 0
      ∧ (∀ b, b < ([3, 3] : List ℤ).length →
          ([false, false] : List Bool).getD b false = false →
          ([3, 3] : List ℤ).getD b 0 = listMaxD ([3, 3] : List ℤ) 0 →
          ([0, 0] : List ℚ).getD b 0 + ([5, 1] : List ℚ).getD b 0
              + ([0, 0] : List ℚ).getD b 0
            ≤ ([0, 0] : List ℚ).getD act 0 + ([5, 1] : List ℚ).getD act 0
              + ([0, 0] : List ℚ).getD act 0)
      ∧ (∀ b, b < ([3, 3] : List ℤ).length →
          ([false, false] : List Bool).getD b false = false →
          ([3, 3] : List ℤ).getD b 0 = listMaxD ([3, 3] : List ℤ) 0 →
          ([0, 0] : List ℚ).getD b 0 + ([5, 1] : List ℚ).getD b 0
              + ([0, 0] : List ℚ).getD b 0
            = ([0, 0] : List ℚ).getD act 0 + ([5, 1] : List ℚ).getD act 0
              + ([0, 0] : List ℚ).getD act 0 →
          act ≤ b) :=
  ⟨⟨0, by decide, rfl, by decide⟩,
    gumbel_final_action_spec [0, 0] [5, 1] [0, 0] [3, 3] [false, false]
      ⟨0, by decide, rfl, by decide⟩⟩

/-- Claim C4: an executed round `g` (stopping flag unset and nonzero
`max_depth` countdown) of the multi-step policy runs `generate_next_action`;
its inner fori_loop applies the simulate/expand/backward cycle
`generate_next_action_inner` exactly once for each counter in
`range' (g*num_simulations) num_simulations`, i.e. for the
`num_simulations` counters `g*num_simulations .. (g+1)*num_simulations - 1`;
and the resulting stopping flag is the stopping criterion evaluated on the
new root's embedding of the re-rooted result tree. -/
theorem generate_next_action_round_spec {E K : Type} (P : MSParams E K) (g : ℕ)
    (s : MSState E K) (h1 : s.stop_generating = false) (h2 : s.max_depth ≠ 0) :
    generate_next_action_stopping_wrapper P g s = generate_next_action P g s
    ∧ foriLoop (g * P.num_simulations) ((g + 1) * P.num_simulations)
        (generate_next_action_inner P) (s.rng_key, s.tree, s.max_depth)
      = (List.range' (g * P.num_simulations) P.num_simulations).foldl
          (fun st i => generate_next_action_inner P i st)
          (s.rng_key, s.tree, s.max_depth)
    ∧ (List.range' (g * P.num_simulations) P.num_simulations).length
        = P.num_simulations
    ∧ (generate_next_action P g s).stop_generating
      = P.stopping_criteria_fn (fun b =>
          (generate_next_action P g s).tree.embeddings b
            ((generate_next_action P g s).tree.root_index b)) := by
  refine ⟨?_, ?_, by simp, rfl⟩
  · unfold generate_next_action_stopping_wrapper
    rw [if_neg]
    intro hcon
    rcases hcon with hcon | hcon
    · rw [h1] at hcon
      exact Bool.false_ne_true hcon
    · exact h2 hcon
  · unfold foriLoop
    rw [Nat.succ_mul, Nat.add_sub_cancel_left]

/-- Witness for C4 at a concrete parameter bundle (one simulation per
round) and loop state. -/
theorem generate_next_action_round_spec_witness :
    (trivialMSState.stop_generating = false ∧ trivialMSState.max_depth ≠ 0)
    ∧ (generate_next_action_stopping_wrapper (testParams 1 1 false) 0 trivialMSState
        = generate_next_action (testParams 1 1 false) 0 trivialMSState
      ∧ foriLoop (0 * (testParams 1 1 false).num_simulations)
          ((0 + 1) * (testParams 1 1 false).num_simulations)
          (generate_next_action_inner (testParams 1 1 false))
          (trivialMSState.rng_key, trivialMSState.tree, trivialMSState.max_depth)
        = (List.range' (0 * (testParams 1 1 false).num_simulations)
            (testParams 1 1 false).num_simulations).foldl
            (fun st i => generate_next_action_inner (testParams 1 1 false) i st)
            (trivialMSState.rng_key, trivialMSState.tree, trivialMSState.max_depth)
      ∧ (List.range' (0 * (testParams 1 1 false).num_simulations)
          (testParams 1 1 false).num_simulations).length
          = (testParams 1 1 false).num_simulations
      ∧ (generate_next_action (testParams 1 1 false) 0 trivialMSState).stop_generating
        = (testParams 1 1 false).stopping_criteria_fn (fun b =>
            (generate_next_action (testParams 1 1 false) 0 trivialMSState).tree.embeddings b
              ((generate_next_action (testParams 1 1 false) 0 trivialMSState).tree.root_index b))) :=
  ⟨⟨rfl, by decide⟩,
    generate_next_action_round_spec (testParams 1 1 false) 0 trivialMSState rfl (by decide)⟩

/-- A stopped loop state (stopping flag set or `max_depth` countdown 0) is
a fixed point of the stopping wrapper. -/
theorem stopping_wrapper_fixed {E K : Type} (P : MSParams E K) (g : ℕ)
    (s : MSState E K) (hs : s.stop_generating = true ∨ s.max_depth = 0) :
    generate_next_action_stopping_wrapper P g s = s := by
  unfold generate_next_action_stopping_wrapper
  rw [if_pos hs]

/-- Any fori_loop of the stopping wrapper leaves a stopped state unchanged. -/
theorem foriLoop_wrapper_stopped {E K : Type} (P : MSParams E K) (l u : ℕ)
    (s : MSState E K) (hs : s.stop_generating = true ∨ s.max_depth = 0) :
    foriLoop l u (generate_next_action_stopping_wrapper P) s = s := by
  unfold foriLoop
  generalize List.range' l (u - l) = L
  induction L with
  | nil => rfl
  | cons i is ih =>
    rw [List.foldl_cons, stopping_wrapper_fixed P i s hs]
    exact ih

/-- `foriLoop` splits at an intermediate counter. -/
theorem foriLoop_split {σ : Type} (l m u : ℕ) (hlm : l ≤ m) (hmu : m ≤ u)
    (body : ℕ → σ → σ) (init : σ) :
    foriLoop l u body init = foriLoop m u body (foriLoop l m body init) := by
  unfold foriLoop
  rw [← List.foldl_append]
  congr 1
  have h1 : u - l = (u - m) + (m - l) := by omega
  rw [h1, ← List.range'_append_1 l (m - l) (u - m), Nat.add_sub_cancel' hlm]

/-- `foriLoop` over a single counter applies the body once. -/
theorem foriLoop_single {σ : Type} (m : ℕ) (body : ℕ → σ → σ) (init : σ) :
    foriLoop m (m + 1) body init = body m init := by
  unfold foriLoop
  rw [Nat.add_sub_cancel_left]
  rfl

/-- An executed round `g` changes `performed_actions` only by writing
column `g`. -/
theorem generate_next_action_performed {E K : Type} (P : MSParams E K) (g : ℕ)
    (s : MSState E K) :
    ∃ action : ℕ → ℕ, (generate_next_action P g s).performed_actions
      = s.performed_actions.set g fun b => (action b : ℤ) :=
  ⟨_, rfl⟩

/-- Invariant of the generation loop: after `m` rounds, `performed_actions`
still has one column per action to generate, and every column with index at
least `m` still holds the sentinel `-1` row it was initialized with. -/
theorem ms_loop_columns {E K : Type} (P : MSParams E K) (rng_key : K)
    (root : RootFnOutput E) (md : Option ℕ) (m : ℕ) :
    (foriLoop 0 m (generate_next_action_stopping_wrapper P)
        (ms_init_state P rng_key root md)).performed_actions.length
      = P.num_actions_to_generate
    ∧ (∀ j, m ≤ j → j < P.num_actions_to_generate →
        (foriLoop 0 m (generate_next_action_stopping_wrapper P)
          (ms_init_state P rng_key root md)).performed_actions.getD j
            (fun _ => 0) = fun _ => (-1 : ℤ)) := by
  induction m with
  | zero =>
    have h0 : foriLoop 0 0 (generate_next_action_stopping_wrapper P)
        (ms_init_state P rng_key root md) = ms_init_state P rng_key root md := rfl
    rw [h0]
    constructor
    · exact List.length_replicate _ _
    · intro j _ hjK
      have hjlen : j < (List.replicate P.num_actions_to_generate
          (fun _ : ℕ => (-1 : ℤ))).length := by
        rw [List.length_replicate]
        exact hjK
      show (List.replicate P.num_actions_to_generate
          (fun _ : ℕ => (-1 : ℤ))).getD j (fun _ => 0) = fun _ => (-1 : ℤ)
      rw [List.getD_eq_getElem _ _ hjlen, List.getElem_replicate]
  | succ m ih =>
    have hsplit : foriLoop 0 (m + 1) (generate_next_action_stopping_wrapper P)
        (ms_init_state P rng_key root md)
        = generate_next_action_stopping_wrapper P m
            (foriLoop 0 m (generate_next_action_stopping_wrapper P)
              (ms_init_state P rng_key root md)) := by
      rw [foriLoop_split 0 m (m + 1) (Nat.zero_le m) (Nat.le_succ m),
        foriLoop_single]
    rw [hsplit]
    set sm := foriLoop 0 m (generate_next_action_stopping_wrapper P)
      (ms_init_state P rng_key root md) with hsm
    by_cases hs : sm.stop_generating = true ∨ sm.max_depth = 0
    · rw [stopping_wrapper_fixed P m sm hs]
      exact ⟨ih.1, fun j hmj hjK => ih.2 j (le_trans (Nat.le_succ m) hmj) hjK⟩
    · unfold generate_next_action_stopping_wrapper
      rw [if_neg hs]
      obtain ⟨act, hact⟩ := generate_next_action_performed P m sm
      rw [hact]
      constructor
      · rw [List.length_set]
        exact ih.1
      · intro j hmj hjK
        have hjlen : j < (sm.performed_actions.set m
            fun b => (act b : ℤ)).length := by
          rw [List.length_set, ih.1]
          exact hjK
        have hjlen2 : j < sm.performed_actions.length := by
          rw [ih.1]
          exact hjK
        rw [List.getD_eq_getElem _ _ hjlen,
          List.getElem_set_ne (by omega : m ≠ j),
          ← List.getD_eq_getElem sm.performed_actions (fun _ => 0) hjlen2]
        exact ih.2 j (by omega) hjK

/-- Claim C10: once the loop state after some round `j` is stopped (the
stopping criterion returned true, or the `max_depth` countdown reached 0),
every later iteration of the generation loop is a no-op on the loop state
(rng key, tree, `max_depth`, `performed_actions`, stopping flag all
unchanged); hence the multi-step policy returns that state unchanged, the
returned action array keeps one column per requested action, every column
of a round that never executed still holds the sentinel `-1`, and the
returned `action_weights` is the empty array. -/
theorem stopped_rounds_noop {E K : Type} (P : MSParams E K) (rng_key : K)
    (root : RootFnOutput E) (md : Option ℕ) (j : ℕ) (sj : MSState E K)
    (hj : j ≤ P.num_actions_to_generate)
    (hsj : sj = foriLoop 0 j (generate_next_action_stopping_wrapper P)
      (ms_init_state P rng_key root md))
    (hstop : sj.stop_generating = true ∨ sj.max_depth = 0) :
    (∀ g, generate_next_action_stopping_wrapper P g sj = sj)
    ∧ ms_run P rng_key root md = sj
    ∧ sj.performed_actions.length = P.num_actions_to_generate
    ∧ (∀ i, j ≤ i → i < P.num_actions_to_generate →
        sj.performed_actions.getD i (fun _ => 0) = fun _ => (-1 : ℤ))
    ∧ muzero_policy_for_action_sequence P rng_key root none md
      = Except.ok { action := sj.performed_actions, action_weights := [],
                    search_tree := sj.tree } := by
  have hrun : ms_run P rng_key root md = sj := by
    unfold ms_run
    rw [foriLoop_split 0 j P.num_actions_to_generate (Nat.zero_le j) hj, ← hsj]
    exact foriLoop_wrapper_stopped P j P.num_actions_to_generate sj hstop
  refine ⟨fun g => stopping_wrapper_fixed P g sj hstop, hrun, ?_, ?_, ?_⟩
  · rw [hsj]
    exact (ms_loop_columns P rng_key root md j).1
  · intro i hji hiK
    rw [hsj]
    exact (ms_loop_columns P rng_key root md j).2 i hji hiK
  · have hunfold : muzero_policy_for_action_sequence P rng_key root none md
        = Except.ok ⟨(ms_run P rng_key root md).performed_actions, [],
            (ms_run P rng_key root md).tree⟩ := rfl
    rw [hunfold, hrun]

/-- Witness for C10: with zero simulations per round, two rounds requested
and a stopping criterion that immediately returns true, the state after
round 1 is stopped, the second round is a no-op, and column 1 of the
returned actions keeps the sentinel `-1`. -/
theorem stopped_rounds_noop_witness :
    ((1 : ℕ) ≤ (testParams 0 2 true).num_actions_to_generate
      ∧ ((foriLoop 0 1 (generate_next_action_stopping_wrapper (testParams 0 2 true))
          (ms_init_state (testParams 0 2 true) () trivialRoot
            (some 5))).stop_generating = true
        ∨ (foriLoop 0 1 (generate_next_action_stopping_wrapper (testParams 0 2 true))
            (ms_init_state (testParams 0 2 true) () trivialRoot
              (some 5))).max_depth = 0))
    ∧ ((∀ g, generate_next_action_stopping_wrapper (testParams 0 2 true) g
          (foriLoop 0 1 (generate_next_action_stopping_wrapper (testParams 0 2 true))
            (ms_init_state (testParams 0 2 true) () trivialRoot (some 5)))
        = foriLoop 0 1 (generate_next_action_stopping_wrapper (testParams 0 2 true))
            (ms_init_state (testParams 0 2 true) () trivialRoot (some 5)))
      ∧ ms_run (testParams 0 2 true) () trivialRoot (some 5)
        = foriLoop 0 1 (generate_next_action_stopping_wrapper (testParams 0 2 true))
            (ms_init_state (testParams 0 2 true) () trivialRoot (some 5))
      ∧ (foriLoop 0 1 (generate_next_action_stopping_wrapper (testParams 0 2 true))
          (ms_init_state (testParams 0 2 true) () trivialRoot
            (some 5))).performed_actions.length
        = (testParams 0 2 true).num_actions_to_generate
      ∧ (∀ i, 1 ≤ i → i < (testParams 0 2 true).num_actions_to_generate →
          (foriLoop 0 1 (generate_next_action_stopping_wrapper (testParams 0 2 true))
            (ms_init_state (testParams 0 2 true) () trivialRoot
              (some 5))).performed_actions.getD i (fun _ => 0) = fun _ => (-1 : ℤ))
      ∧ muzero_policy_for_action_sequence (testParams 0 2 true) () trivialRoot none
          (some 5)
        = Except.ok
            ⟨(foriLoop 0 1 (generate_next_action_stopping_wrapper (testParams 0 2 true))
                (ms_init_state (testParams 0 2 true) () trivialRoot
                  (some 5))).performed_actions, [],
              (foriLoop 0 1 (generate_next_action_stopping_wrapper (testParams 0 2 true))
                (ms_init_state (testParams 0 2 true) () trivialRoot
                  (some 5))).tree⟩) :=
  ⟨⟨by decide, Or.inl rfl⟩,
    stopped_rounds_noop (testParams 0 2 true) () trivialRoot (some 5) 1
      (foriLoop 0 1 (generate_next_action_stopping_wrapper (testParams 0 2 true))
        (ms_init_state (testParams 0 2 true) () trivialRoot (some 5)))
      (by decide) rfl (Or.inl rfl)⟩
